import Mathlib

/-! Shallow embedding of the process-controller core of the yt-dlp-helper
repository (src/helpers/terminal.ts, src/yt-dlp-helper.ts,
src/helpers/constants.ts, src/helpers/utils.ts), together with theorems
settling the frozen claims about it.

Conventions of the embedding:
- stdout chunks are modelled after utf-8 decoding, as Lean strings;
  the decode step (Buffer.from(x).toString) preserves count and order of
  chunks, which is all the claims depend on.
- asynchronous event handling is modelled as explicit state passing:
  a system state plus a step function over an event trace.
- Config.log guarded console.debug calls are pure logging and are
  not modelled.
-/

namespace YtDlpHelper

/-- An event observed on the stdout stream of a controlled process while a
consumer iterates it: either a data chunk (modelled post decode) or an
error event on the stream. -/
inductive SEv where
| chunk (text : String)
| serr
deriving DecidableEq, Repr

/-- Async iteration of a Node Readable (the for-await loop in
Terminal.listen, terminal.ts line 161): items are produced until the
stream ends or an error event fires; an error rejects the iteration, so
no item at or after the error is produced. -/
def forAwaitYield : List SEv → List String
| [] => []
| SEv.serr :: _ => []
| SEv.chunk c :: rest => c :: forAwaitYield rest

/-- Per-terminal output bookkeeping. data is the array in the private
field of Terminal (terminal.ts line 101, initialised to the empty array).
streamObj records array-style writes that land on the stdout stream
object itself (see onStdoutData below). -/
structure TermBuf where
  data : List String
  streamObj : List String
deriving DecidableEq, Repr

/-- The state of the buffers right after the constructor ran. -/
def initBuf : TermBuf := TermBuf.mk [] []

/-- The data listener installed by the constructor, terminal.ts line 109:
the code passes the push method of the data array by reference, detached
from its receiver. At call time the receiver of the extracted
Array.prototype.push is the emitting stdout stream (Node invokes
listeners with the emitter as receiver), so the chunk is appended to the
stream object as an array-like write and the data array of the Terminal
is left unchanged. -/
def onStdoutData (b : TermBuf) (c : String) : TermBuf :=
  TermBuf.mk b.data (b.streamObj ++ [c])

/-- Fold of the data listener over the chunks that arrive before any
consumer begins iterating. -/
def bufferPhase (b : TermBuf) : List String → TermBuf
| [] => b
| c :: cs => bufferPhase (onStdoutData b c) cs

/-- The private listen generator, terminal.ts lines 150 to 164: first
replays the data array, then iterates the live stdout stream. -/
def hListen (b : TermBuf) (live : List SEv) : List String :=
  b.data ++ forAwaitYield live

/-- An item yielded by Terminal.listen: the raw decoded text when no
value selector is installed, otherwise the object returned by the value
selector. -/
inductive Yielded (V : Type) where
| rawText (s : String)
| selected (v : V)
deriving DecidableEq, Repr

/-- Terminal.listen, terminal.ts lines 175 to 186: for every text
produced by the private listen generator, yields valueSelector(text)
when a selector is installed, else yields the text itself. The code
applies no further handling to the selector result: the returned object
is yielded as-is for every chunk. -/
def listen (sel : Option (String → V)) (b : TermBuf) (live : List SEv) :
    List (Yielded V) :=
  (hListen b live).map fun t =>
    match sel with
    | some f => Yielded.selected (f t)
    | none => Yielded.rawText t

/-- The shape of the objects returned by downloadValueSelector
(yt-dlp-helper.ts lines 184 to 202): the object carrying stop true, the
JS null value, or the object carrying a data payload. -/
inductive SelRes (J : Type) where
| jsStop
| jsNull
| jsData (payload : J)
deriving DecidableEq, Repr

/-- Identifier strings produced by crypto.randomBytes(16).toString with
hex encoding, terminal.ts line 100. -/
abbrev TermId := String

/-- The per-controller state held by a Terminal instance: the private
fields id, running, exit code, exit signal (terminal.ts lines 15 to 21)
together with the killed flag and pid of the underlying ChildProcess
object (read by Terminal.kill, lines 134 and 137). The exit fields use an
outer Option to record whether the JS field has ever been assigned: none
means the field is still unassigned (the getter reports no value), some v
means the close handler assigned it the value v, which is itself the
possibly-null code or signal Node passed to the handler. -/
structure Ctrl where
  id : TermId
  running : Bool
  procKilled : Bool
  pid : Option Nat
  exitCode : Option (Option Int)
  exitSignal : Option (Option String)
deriving DecidableEq, Repr

/-- The process-wide registry Terminal.#all (terminal.ts line 11),
modelled as an association list from identifier to the construction
index of the controller. JS object semantics: assignment overwrites the
key, delete removes it, lookup returns the value at the key. -/
abbrev Registry := List (TermId × Nat)

/-- JS object assignment all[k] = v: any previous binding of k is
replaced. -/
def rset (r : Registry) (k : TermId) (v : Nat) : Registry :=
  r.filter (fun p => p.1 != k) ++ [(k, v)]

/-- JS delete all[k]. -/
def rdel (r : Registry) (k : TermId) : Registry :=
  r.filter (fun p => p.1 != k)

/-- JS lookup all[k]: Terminal.fromID, terminal.ts lines 333 to 335,
returns the registered controller or no value. -/
def rget (r : Registry) (k : TermId) : Option Nat :=
  (r.find? (fun p => p.1 == k)).map (fun p => p.2)

/-- Whole-system state: every controller ever constructed, listed in
construction order (the index is the identity of the controller), plus
the process-wide registry mapping identifier to that index. -/
structure Sys where
  terminals : List Ctrl
  registry : Registry
deriving DecidableEq, Repr

/-- The state before any Terminal was constructed. -/
def initSys : Sys := Sys.mk [] []

/-- Events processed by the handlers the Terminal constructor and
Terminal.new install.
- construct: the constructor body, terminal.ts lines 100 to 117
  (generate id, mark running, register in the static table).
- closeEv t code sig: the close handler of controller t, lines 111
  to 117 (clear running, assign both exit fields, delete the registry
  entry of the own id).
- dataEv: a stdout data event; its listener is the detached array push
  (see onStdoutData), which touches no controller or registry state.
- stdoutErr: an error event on the process or its stdout stream after
  Terminal.new returned; the installed listeners (terminal.ts lines 294
  to 307) only write a local variable or reject an already settled
  promise, so no controller or registry state changes. -/
inductive Ev where
| construct (id : TermId) (pid : Option Nat)
| closeEv (t : Nat) (code : Option Int) (sig : Option String)
| dataEv (t : Nat) (c : String)
| stdoutErr (t : Nat)
deriving DecidableEq, Repr

/-- One step of the event semantics, translated handler by handler from
the constructor of Terminal. -/
def step (s : Sys) : Ev → Sys
| Ev.construct id pid =>
    Sys.mk
      (s.terminals ++
        [Ctrl.mk id true false pid none none])
      (rset s.registry id s.terminals.length)
| Ev.closeEv t code sig =>
    match s.terminals[t]? with
    | none => s
    | some c =>
        Sys.mk
          (s.terminals.set t
            (Ctrl.mk c.id false c.procKilled c.pid (some code) (some sig)))
          (rdel s.registry c.id)
| Ev.dataEv _ _ => s
| Ev.stdoutErr _ => s

/-- Processing of an event trace from a starting state. -/
def applyTrace (s : Sys) : List Ev → Sys
| [] => s
| e :: tr => applyTrace (step s e) tr

/-- True exactly for the close event of controller t. -/
def closesT (t : Nat) : Ev → Bool
| Ev.closeEv u _ _ => u == t
| _ => false

/-- True exactly for a construct event carrying the identifier id. -/
def constructsId (id : TermId) : Ev → Bool
| Ev.construct i _ => i == id
| _ => false

/-- Registry health: every registry entry points at an existing
controller that carries that identifier and is still running. -/
def RegInv (s : Sys) : Prop :=
  ∀ p ∈ s.registry,
    ∃ c, s.terminals[p.2]? = some c ∧ c.id = p.1 ∧ c.running = true

/-- The rate-limit gate at the head of Terminal.new, terminal.ts lines
252 to 270. Arguments: the process-wide run interval (static
runIntervalMS), the stored last-run timestamp (static lastRun), and the
current clock value. Returns the updated last-run timestamp and the time
at which the launch attempt begins: when the computed next run time lies
in the future the gate stores it and sleeps until it, so the attempt
begins at that time; otherwise it stores the current time and the
attempt begins immediately. -/
def gate (interval lastRun now : Nat) : Nat × Nat :=
  if lastRun + interval > now then
    (lastRun + interval, lastRun + interval)
  else (now, now)

/-- Successive gated Terminal.new calls threading the stored static
timestamp: given the clock value observed by each call, returns the
begin times of the launch attempts in call order. The gate is a
synchronous read-modify-write (no suspension between the read of the
static field and its update), so concurrent callers are serialized at
the gate exactly as this sequential threading describes. -/
def gateSeq (interval lastRun : Nat) : List Nat → List Nat
| [] => []
| now :: rest =>
    (gate interval lastRun now).2 ::
      gateSeq interval (gate interval lastRun now).1 rest

/-- Outcome of one spawn attempt of Terminal.new, terminal.ts lines 277
to 321: either an error surfaced on the process or its stdout within the
settle window of intermissionMS (the awaited promise rejects and the
catch branch runs), or the settle timeout fired first and the attempt
returns the constructed terminal. -/
inductive AttemptOutcome where
| earlyError
| settled
deriving DecidableEq, Repr

/-- Result of the attempt loop of Terminal.new: the index of the attempt
whose terminal was returned (none when every attempt failed, in which
case the function returns null and no exception escapes, because the
catch branch swallows every attempt error), the number of spawn attempts
performed, and the number of retryIntervalMS sleeps performed (the catch
branch sleeps once after every failed attempt). -/
structure LoopResult where
  terminal : Option Nat
  attempts : Nat
  retryWaits : Nat
deriving DecidableEq, Repr

/-- The attempt loop of Terminal.new, driven by the outcome of each
successive attempt; start is the index of the next attempt, remaining
the number of loop iterations left out of tryCount. -/
def runAttempts (outcome : Nat → AttemptOutcome) (start remaining : Nat) :
    LoopResult :=
  match remaining with
  | 0 => LoopResult.mk none 0 0
  | r + 1 =>
      match outcome start with
      | AttemptOutcome.settled => LoopResult.mk (some start) 1 0
      | AttemptOutcome.earlyError =>
          let rest := runAttempts outcome (start + 1) r
          LoopResult.mk rest.terminal (rest.attempts + 1)
            (rest.retryWaits + 1)

/-- Terminal.new after the rate gate: the attempt loop started at
attempt index zero with tryCount iterations available. -/
def terminalNew (outcome : Nat → AttemptOutcome) (tryCount : Nat) :
    LoopResult :=
  runAttempts outcome 0 tryCount

/-- The platform dispatch of Terminal.kill, terminal.ts line 136. -/
inductive Platform where
| win32
| posix
deriving DecidableEq, Repr

/-- Externally visible actions of Terminal.kill: a call into the
tree-kill utility with the raw pid (the win32 branch, line 141) or a
direct kill call on the ChildProcess object (line 143). -/
inductive KillEffect where
| treeKillCall (pid : Nat) (signal : String)
| procKillCall (signal : String)
deriving DecidableEq, Repr

/-- Terminal.kill, terminal.ts lines 131 to 148. Returns the updated
controller state and the list of emitted termination actions. Guards: a
controller that is not running, or whose process already has the killed
flag, returns unchanged with no action. On win32 a missing pid returns
silently; otherwise the tree-kill utility is invoked with the bare pid
number, which cannot reach the ChildProcess object, so the killed flag
stays as it was. On the other platforms the kill method of the
ChildProcess is called, which Node records by setting the killed flag
once the signal is sent. -/
def kill (plat : Platform) (c : Ctrl) (signal : String) :
    Ctrl × List KillEffect :=
  if c.running = false then (c, [])
  else if c.procKilled = true then (c, [])
  else
    match plat with
    | Platform.win32 =>
        match c.pid with
        | none => (c, [])
        | some pid => (c, [KillEffect.treeKillCall pid signal])
    | Platform.posix =>
        (Ctrl.mk c.id c.running true c.pid c.exitCode c.exitSignal,
          [KillEffect.procKillCall signal])

/-- The hex digit characters produced by Node buffer hex encoding
(lowercase). -/
def hexDigitChar (n : Nat) : Char :=
  "0123456789abcdef".toList.getD n (Char.ofNat 48)

/-- Hex encoding of a byte list, as in randomBytes(16).toString with hex
encoding, terminal.ts line 100: two lowercase hex digits per byte. -/
def bytesToHex : List Nat → List Char
| [] => []
| b :: bs => hexDigitChar (b / 16) :: hexDigitChar (b % 16) :: bytesToHex bs

/-- A lowercase hex digit. -/
def isLowerHex (c : Char) : Bool :=
  (48 ≤ c.toNat && c.toNat ≤ 57) || (97 ≤ c.toNat && c.toNat ≤ 102)

/-- The JS regex whitespace class, matched by a backslash-s atom: space,
tab, line feed, vertical tab, form feed, carriage return, and the
unicode space separators the ECMAScript definition lists. -/
def isJsWs (c : Char) : Bool :=
  c.toNat = 32 || c.toNat = 9 || c.toNat = 10 || c.toNat = 11 ||
  c.toNat = 12 || c.toNat = 13 || c.toNat = 160 || c.toNat = 5760 ||
  (8192 ≤ c.toNat && c.toNat ≤ 8202) || c.toNat = 8232 ||
  c.toNat = 8233 || c.toNat = 8239 || c.toNat = 8287 ||
  c.toNat = 12288 || c.toNat = 65279

/-- The JS regex dot atom without the dotAll flag: any character except
the four ECMAScript line terminators. -/
def isJsDot (c : Char) : Bool :=
  !(c.toNat = 10 || c.toNat = 13 || c.toNat = 8232 || c.toNat = 8233)

/-- Regular expressions over characters: the empty language, the empty
string, a character class, concatenation, alternation and star. Enough
to embed the two anchored patterns of src/helpers/constants.ts. -/
inductive Rx where
| emp
| eps
| cls (p : Char → Bool)
| cat (a b : Rx)
| alt (a b : Rx)
| star (a : Rx)

/-- Whether the regex accepts the empty string. -/
def nullable : Rx → Bool
| Rx.emp => false
| Rx.eps => true
| Rx.cls _ => false
| Rx.cat a b => nullable a && nullable b
| Rx.alt a b => nullable a || nullable b
| Rx.star _ => true

/-- Brzozowski derivative of the regex by one character. -/
def deriv (r : Rx) (c : Char) : Rx
  :=
  match r with
  | Rx.emp => Rx.emp
  | Rx.eps => Rx.emp
  | Rx.cls p => if p c then Rx.eps else Rx.emp
  | Rx.cat a b =>
      if nullable a then
        Rx.alt (Rx.cat (deriv a c) b) (deriv b c)
      else
        Rx.cat (deriv a c) b
  | Rx.alt a b => Rx.alt (deriv a c) (deriv b c)
  | Rx.star a => Rx.cat (deriv a c) (Rx.star a)

/-- Whether the regex matches some prefix of the character list. An exec
call on a pattern anchored at the start succeeds on a text exactly when
the body of the pattern matches some prefix of the text. -/
def matchesPre (r : Rx) : List Char → Bool
| [] => nullable r
| c :: cs => nullable r || matchesPre (deriv r c) cs

/-- The word language of a regex, used to certify that the executable
exec models below agree with the patterns they embed. -/
inductive Lang : Rx → List Char → Prop where
| leps : Lang Rx.eps []
| lcls (p : Char → Bool) (c : Char) (h : p c = true) : Lang (Rx.cls p) [c]
| lcat (a b : Rx) (l1 l2 : List Char) (h1 : Lang a l1) (h2 : Lang b l2) :
    Lang (Rx.cat a b) (l1 ++ l2)
| laltL (a b : Rx) (l : List Char) (h : Lang a l) : Lang (Rx.alt a b) l
| laltR (a b : Rx) (l : List Char) (h : Lang b l) : Lang (Rx.alt a b) l
| lstarNil (a : Rx) : Lang (Rx.star a) []
| lstarCons (a : Rx) (l1 l2 : List Char) (h1 : Lang a l1)
    (h2 : Lang (Rx.star a) l2) : Lang (Rx.star a) (l1 ++ l2)

/-- A case-insensitive single character, the literal atoms under the
regex flag i. -/
def ci (c : Char) : Rx := Rx.cls (fun x => x.toLower == c.toLower)

/-- A case-insensitive literal string followed by a continuation
pattern: the concatenation in the source pattern is flat, so the
embedding nests it to the right, one character atom at a time. -/
def litThen (s : String) (k : Rx) : Rx :=
  s.toList.foldr (fun c r => Rx.cat (ci c) r) k

/-- The backslash-s star atom. -/
def wsStar : Rx := Rx.star (Rx.cls isJsWs)

/-- The backslash-s plus atom. -/
def wsPlus : Rx := Rx.cat (Rx.cls isJsWs) wsStar

/-- The dot plus atom. -/
def dotPlus : Rx := Rx.cat (Rx.cls isJsDot) (Rx.star (Rx.cls isJsDot))

/-- Body of ALREADY_DOWNLOADED_RE from src/helpers/constants.ts: the
anchored, case-insensitive pattern consisting of the literal download
tag in brackets, optional whitespace, one or more dot characters,
optional whitespace, then the literal already-downloaded phrase. -/
def ALREADY_DOWNLOADED_RE : Rx :=
  litThen "[download]"
    (Rx.cat wsStar
      (Rx.cat dotPlus
        (Rx.cat wsStar (litThen "has already been downloaded" Rx.eps))))

/-- Exec of ALREADY_DOWNLOADED_RE on a text returns a match exactly when
the anchored body matches some prefix of the text. -/
def alreadyDownloadedMatches (s : String) : Bool :=
  matchesPre ALREADY_DOWNLOADED_RE s.toList

/-- Body of DOWNLOAD_PROGRESS_RE from src/helpers/constants.ts: the
anchored, case-insensitive pattern consisting of the literal progress
tag in brackets, one or more whitespace characters, then the captured
dot-plus group. The capture semantics of the exec call is implemented
by progressExec below. -/
def DOWNLOAD_PROGRESS_RE : Rx :=
  litThen "[progress]" (Rx.cat wsPlus dotPlus)

/-- Strips a case-insensitive literal prefix, as the anchored literal
head of a pattern under the flag i consumes it; returns the rest of the
text on success. -/
def stripCI : List Char → List Char → Option (List Char)
| [], s => some s
| _ :: _, [] => none
| p :: ps, c :: cs => if c.toLower == p.toLower then stripCI ps cs else none

/-- Greedy backtracking split for the tail of DOWNLOAD_PROGRESS_RE: the
whitespace-plus atom first consumes the whole leading whitespace run of
length w and backtracks one character at a time, so the chosen count is
the largest k between 1 and w such that the capture group, a dot-plus,
can still match at position k, which requires a dot character there. -/
def greedyWsSplit (t : List Char) : Nat → Option Nat
| 0 => none
| k + 1 =>
    if (t.drop (k + 1)).head?.elim false isJsDot then some (k + 1)
    else greedyWsSplit t k

/-- Exec of DOWNLOAD_PROGRESS_RE from src/helpers/constants.ts, the
anchored case-insensitive pattern consisting of the literal progress tag
in brackets, one or more whitespace characters, then a captured greedy
dot-plus. Returns the text of capture group one on success: the maximal
run of dot characters after the whitespace split chosen by greedy
backtracking. -/
def progressExec (s : String) : Option (List Char) :=
  match stripCI "[progress]".toList s.toList with
  | none => none
  | some t =>
      match greedyWsSplit t (t.takeWhile isJsWs).length with
      | none => none
      | some k => some ((t.drop k).takeWhile isJsDot)

/-- downloadValueSelector, yt-dlp-helper.ts lines 184 to 202: when the
already-downloaded pattern matches the text, return the object carrying
stop true; otherwise when the progress pattern does not match, return
null; otherwise return the object whose data field is JSON.parse applied
to capture group one. JSON.parse belongs to the platform and is passed
in abstractly as the function jp. -/
def downloadValueSelector (jp : List Char → J) (text : String) :
    SelRes J :=
  if alreadyDownloadedMatches text then SelRes.jsStop
  else
    match progressExec text with
    | none => SelRes.jsNull
    | some g => SelRes.jsData (jp g)

/-! Helper lemmas. -/

theorem bufferPhase_data (cs : List String) :
    ∀ b : TermBuf, (bufferPhase b cs).data = b.data := by
  induction cs with
  | nil => intro b; rfl
  | cons c cs ih => intro b; simpa [bufferPhase, onStdoutData] using ih _

theorem forAwaitYield_until_error (post : List SEv) (texts : List String) :
    forAwaitYield (texts.map SEv.chunk ++ SEv.serr :: post) = texts := by
  induction texts with
  | nil => rfl
  | cons t ts ih => simpa [forAwaitYield] using ih

theorem runAttempts_le (outcome : Nat → AttemptOutcome) :
    ∀ remaining start, (runAttempts outcome start remaining).attempts ≤ remaining := by
  intro remaining
  induction remaining with
  | zero => intro start; simp [runAttempts]
  | succ r ih =>
      intro start
      cases h : outcome start <;> simp [runAttempts, h]
      exact ih (start + 1)

theorem runAttempts_all_fail (outcome : Nat → AttemptOutcome) :
    ∀ remaining start,
      (∀ k, start ≤ k → k < start + remaining →
        outcome k = AttemptOutcome.earlyError) →
      runAttempts outcome start remaining =
        LoopResult.mk none remaining remaining := by
  intro remaining
  induction remaining with
  | zero => intro start _; rfl
  | succ r ih =>
      intro start h
      have h0 : outcome start = AttemptOutcome.earlyError :=
        h start (Nat.le_refl _) (by omega)
      have ht : runAttempts outcome (start + 1) r =
          LoopResult.mk none r r := by
        apply ih
        intro k hk1 hk2
        exact h k (by omega) (by omega)
      simp [runAttempts, h0, ht]

theorem runAttempts_first_settle (outcome : Nat → AttemptOutcome) :
    ∀ remaining start k, start ≤ k → k < start + remaining →
      (∀ j, start ≤ j → j < k → outcome j = AttemptOutcome.earlyError) →
      outcome k = AttemptOutcome.settled →
      runAttempts outcome start remaining =
        LoopResult.mk (some k) (k - start + 1) (k - start) := by
  intro remaining
  induction remaining with
  | zero => intro start k h1 h2; omega
  | succ r ih =>
      intro start k h1 h2 hfail hk
      rcases Nat.eq_or_lt_of_le h1 with rfl | hlt
      · simp [runAttempts, hk]
      · have h0 : outcome start = AttemptOutcome.earlyError :=
          hfail start (Nat.le_refl _) hlt
        have ht := ih (start + 1) k (by omega) (by omega)
          (fun j hj1 hj2 => hfail j (by omega) hj2) hk
        simp only [runAttempts, h0, ht, LoopResult.mk.injEq]
        refine ⟨trivial, by omega, by omega⟩

/-- Claim C1: the spec states that chunks buffered before the first
consumption are yielded first, in arrival order, followed by live
chunks. In the code the data listener is the detached array push
(terminal.ts line 109), whose receiver at call time is the stream, so
the internal buffer stays empty and a chunk that arrives before
iteration begins is never yielded: with one pre-consumption chunk
"hello" and no live chunks, listen produces nothing instead of
producing that chunk first. -/
theorem c1_buffered_chunks_never_replayed :
    (bufferPhase initBuf ["hello"]).data = [] ∧
    hListen (bufferPhase initBuf ["hello"]) [] = [] ∧
    hListen (bufferPhase initBuf ["hello"]) [] ≠ ["hello"] :=
  ⟨rfl, rfl, by decide⟩

/-- Claim C2: the spec states that listen applies the stop, value, drop
protocol of the transform. In the code (terminal.ts lines 175 to 186)
listen yields the object returned by the value selector unconditionally:
with a selector that always returns the stop object, two chunks produce
two yielded stop objects instead of an immediately terminated, empty
sequence. -/
theorem c2_listen_ignores_transform_protocol :
    listen (some fun _ => (SelRes.jsStop : SelRes Unit)) initBuf
        [SEv.chunk "a", SEv.chunk "b"]
      = [Yielded.selected SelRes.jsStop, Yielded.selected SelRes.jsStop] ∧
    (listen (some fun _ => (SelRes.jsStop : SelRes Unit)) initBuf
        [SEv.chunk "a", SEv.chunk "b"]).length ≠ 0 :=
  ⟨rfl, by decide⟩

/-- Claim C3: when every one of the tryCount attempts fails inside its
settle window, Terminal.new returns null rather than throwing (the
model returns the none value; the catch branch swallows every attempt
error), performs exactly tryCount spawn attempts, and sleeps
retryIntervalMS after each failed attempt, in particular between
consecutive attempts; moreover the loop never makes more than tryCount
attempts. -/
theorem c3_new_exhausts_retries_returns_null
    (outcome : Nat → AttemptOutcome) (tryCount : Nat)
    (h : ∀ k, k < tryCount → outcome k = AttemptOutcome.earlyError) :
    terminalNew outcome tryCount =
      LoopResult.mk none tryCount tryCount ∧
    ∀ (oc : Nat → AttemptOutcome) (m : Nat),
      (terminalNew oc m).attempts ≤ m := by
  constructor
  · exact runAttempts_all_fail outcome tryCount 0
      (fun k _ hk => h k (by omega))
  · intro oc m
    exact runAttempts_le oc m 0

/-- Claim C3 witness: three attempts that all fail produce the null
result after exactly three attempts and three retry sleeps. -/
theorem c3_witness :
    terminalNew (fun _ => AttemptOutcome.earlyError) 3 =
      LoopResult.mk none 3 3 :=
  (c3_new_exhausts_retries_returns_null
    (fun _ => AttemptOutcome.earlyError) 3 (fun _ _ => rfl)).1

theorem gate_fst_eq_snd (interval lastRun now : Nat) :
    (gate interval lastRun now).1 = (gate interval lastRun now).2 := by
  simp only [gate]
  split_ifs <;> rfl

theorem gate_snd_ge (interval lastRun now : Nat) :
    lastRun + interval ≤ (gate interval lastRun now).2 := by
  simp only [gate]
  split_ifs <;> simp <;> omega

theorem gateSeq_ge (interval : Nat) :
    ∀ (nows : List Nat) (lastRun i si : Nat),
      (gateSeq interval lastRun nows)[i]? = some si →
      lastRun + interval ≤ si := by
  intro nows
  induction nows with
  | nil => intro lastRun i si h; cases h
  | cons now rest ih =>
      intro lastRun i si h
      cases i with
      | zero =>
          simp only [gateSeq, List.getElem?_cons_zero] at h
          cases h
          exact gate_snd_ge interval lastRun now
      | succ n =>
          simp only [gateSeq, List.getElem?_cons_succ] at h
          have h2 := ih (gate interval lastRun now).1 n si h
          have h3 := gate_snd_ge interval lastRun now
          have h4 := gate_fst_eq_snd interval lastRun now
          omega

theorem gateSeq_pair (interval : Nat) :
    ∀ (nows : List Nat) (lastRun i j si sj : Nat), i < j →
      (gateSeq interval lastRun nows)[i]? = some si →
      (gateSeq interval lastRun nows)[j]? = some sj →
      si + interval ≤ sj := by
  intro nows
  induction nows with
  | nil => intro lastRun i j si sj hij hi hj; cases hi
  | cons now rest ih =>
      intro lastRun i j si sj hij hi hj
      cases j with
      | zero => omega
      | succ m =>
          simp only [gateSeq, List.getElem?_cons_succ] at hj
          cases i with
          | zero =>
              simp only [gateSeq, List.getElem?_cons_zero] at hi
              cases hi
              have h2 := gateSeq_ge interval rest
                (gate interval lastRun now).1 m sj hj
              have h4 := gate_fst_eq_snd interval lastRun now
              omega
          | succ n =>
              simp only [gateSeq, List.getElem?_cons_succ] at hi
              exact ih (gate interval lastRun now).1 n m si sj
                (by omega) hi hj

/-- Claim C4: the rate gate of Terminal.new computes the next allowed
time as the stored timestamp plus the interval; when the current time is
earlier it stores that next allowed time and the attempt begins then,
otherwise it stores the current time and the attempt begins immediately;
consequently the begin times of two consecutive gated calls are at least
the interval apart, and in any sequence of gated calls every pair of
begin times is at least the interval apart. -/
theorem c4_launch_gate_spacing (interval lastRun now1 now2 : Nat) :
    (lastRun + interval > now1 →
      gate interval lastRun now1 =
        (lastRun + interval, lastRun + interval)) ∧
    (lastRun + interval ≤ now1 →
      gate interval lastRun now1 = (now1, now1)) ∧
    ((gate interval (gate interval lastRun now1).1 now2).2 ≥
      (gate interval lastRun now1).2 + interval) ∧
    ∀ (nows : List Nat) (i j si sj : Nat), i < j →
      (gateSeq interval lastRun nows)[i]? = some si →
      (gateSeq interval lastRun nows)[j]? = some sj →
      si + interval ≤ sj := by
  refine ⟨?_, ?_, ?_, ?_⟩
  · intro h; simp only [gate]; rw [if_pos h]
  · intro h; simp only [gate]; rw [if_neg (by omega)]
  · simp only [gate]; split_ifs <;> simp <;> omega
  · intro nows i j si sj hij hi hj
    exact gateSeq_pair interval nows lastRun i j si sj hij hi hj

/-- Claim C4 witness: interval 500, last run 0, first call at time 100
begins at 500; a second call at time 110 begins at 1000 or later, at
least 500 after the first; and in the three-call sequence observed at
times 100, 110 and 120 the first and third begin times, 500 and 1500,
are at least 500 apart. -/
theorem c4_witness :
    gate 500 0 100 = (500, 500) ∧
    ((gate 500 (gate 500 0 100).1 110).2 ≥ (gate 500 0 100).2 + 500) ∧
    500 + 500 ≤ 1500 :=
  ⟨(c4_launch_gate_spacing 500 0 100 110).1 (by omega),
   (c4_launch_gate_spacing 500 0 100 110).2.2.1,
   (c4_launch_gate_spacing 500 0 100 110).2.2.2 [100, 110, 120] 0 2
     500 1500 (by omega) (by decide) (by decide)⟩

/-- Claim C6 counterexample: on the win32 branch Terminal.kill routes
through the tree-kill utility, which receives only the numeric pid and
cannot set the killed flag of the ChildProcess object, and the running
flag is cleared only by the close handler; so a second immediate kill
call passes both guards again and emits a second tree-kill action,
contradicting the claim that a second call has no additional effect. -/
theorem c6_win32_second_kill_repeats :
    (kill Platform.win32
        (kill Platform.win32
          (Ctrl.mk "w" true false (some 42) none none) "SIGTERM").1
        "SIGTERM").2 = [KillEffect.treeKillCall 42 "SIGTERM"] ∧
    (kill Platform.win32
        (kill Platform.win32
          (Ctrl.mk "w" true false (some 42) none none) "SIGTERM").1
        "SIGTERM").2 ≠ [] :=
  ⟨rfl, by decide⟩

/-- Claim C6 (amended): kill on a controller that is not running or
whose process is already killed is a silent no-op with no emitted
action, on every platform; and on the non-win32 platform a second kill
in succession emits no action and leaves the state of the first call
unchanged, because the first call sets the killed flag. On win32 the
killed flag is not set by the tree-kill utility, so a second call
repeats the tree-kill action. -/
theorem c6_kill_noop_amended (plat : Platform) (c : Ctrl) (sig : String) :
    (c.running = false ∨ c.procKilled = true →
      kill plat c sig = (c, [])) ∧
    (c.running = true →
      (kill Platform.posix (kill Platform.posix c sig).1 sig).2 = [] ∧
      (kill Platform.posix (kill Platform.posix c sig).1 sig).1 =
        (kill Platform.posix c sig).1) := by
  constructor
  · rintro (h | h) <;> by_cases hr : c.running <;> simp_all [kill]
  · intro hr
    by_cases hk : c.procKilled <;> simp [kill, hr, hk]

/-- Claim C6 witness: a not-running controller is returned unchanged
with no action, and a running, not yet killed controller on the posix
branch sees no action and no state change from the second of two
successive kill calls. -/
theorem c6_witness :
    kill Platform.posix (Ctrl.mk "k" false false none none none) "SIGTERM"
      = (Ctrl.mk "k" false false none none none, []) ∧
    (kill Platform.posix
        (kill Platform.posix
          (Ctrl.mk "q" true false (some 7) none none) "SIGTERM").1
        "SIGTERM").2 = [] :=
  ⟨(c6_kill_noop_amended Platform.posix
      (Ctrl.mk "k" false false none none none) "SIGTERM").1 (Or.inl rfl),
   ((c6_kill_noop_amended Platform.posix
      (Ctrl.mk "q" true false (some 7) none none) "SIGTERM").2 rfl).1⟩

theorem getElem?_lt_len {α : Type} (l : List α) (n : Nat) (a : α)
    (h : l[n]? = some a) : n < l.length := by
  by_contra hn
  rw [List.getElem?_eq_none (Nat.le_of_not_lt hn)] at h
  cases h

theorem applyTrace_append (l1 l2 : List Ev) :
    ∀ s, applyTrace s (l1 ++ l2) = applyTrace (applyTrace s l1) l2 := by
  induction l1 with
  | nil => intro s; rfl
  | cons e l1 ih => intro s; simpa [applyTrace] using ih (step s e)

theorem regInv_step (s : Sys) (e : Ev) (h : RegInv s) : RegInv (step s e) := by
  cases e with
  | construct id pid =>
      intro p hp
      simp only [step, rset] at hp ⊢
      rcases List.mem_append.mp hp with hp | hp
      · obtain ⟨hp, _⟩ := List.mem_filter.mp hp
        obtain ⟨c, hc, hcid, hcrun⟩ := h p hp
        refine ⟨c, ?_, hcid, hcrun⟩
        rw [List.getElem?_append_left (getElem?_lt_len _ _ _ hc)]
        exact hc
      · have hp : p = (id, s.terminals.length) := by simpa using hp
        subst hp
        exact ⟨Ctrl.mk id true false pid none none,
          List.getElem?_concat_length _ _, rfl, rfl⟩
  | closeEv t code sig =>
      cases hu : s.terminals[t]? with
      | none => simpa [step, hu] using h
      | some cu =>
          intro p hp
          simp only [step, hu, rdel] at hp ⊢
          obtain ⟨hp, hpk⟩ := List.mem_filter.mp hp
          have hne : p.1 ≠ cu.id := by simpa using hpk
          obtain ⟨c, hc, hcid, hcrun⟩ := h p hp
          have htne : t ≠ p.2 := by
            intro heq
            rw [← heq, hu] at hc
            cases hc
            exact hne hcid.symm
          refine ⟨c, ?_, hcid, hcrun⟩
          rw [List.getElem?_set_ne htne]
          exact hc
  | dataEv _ _ => exact h
  | stdoutErr _ => exact h

theorem regInv_applyTrace (tr : List Ev) :
    ∀ s, RegInv s → RegInv (applyTrace s tr) := by
  induction tr with
  | nil => intro s h; exact h
  | cons e tr ih => intro s h; exact ih (step s e) (regInv_step s e h)

/-- Claim C5: the registry of the state reached by any event trace from
the initial state contains only entries that point at a still running
controller carrying that identifier; consequently fromID on an
identifier all of whose owners have exited returns the not-found value.
The O(1) cost of the lookup is a property of the JS object used as the
table and is not part of the functional model. -/
theorem c5_registry_only_live (tr : List Ev) :
    RegInv (applyTrace initSys tr) ∧
    ∀ k : TermId,
      (∀ (t : Nat) (c : Ctrl), (applyTrace initSys tr).terminals[t]? = some c →
        c.id = k → c.running = false) →
      rget (applyTrace initSys tr).registry k = none := by
  have hinv : RegInv (applyTrace initSys tr) := by
    apply regInv_applyTrace
    intro p hp
    simp [initSys] at hp
  refine ⟨hinv, ?_⟩
  intro k hk
  cases hfind : (applyTrace initSys tr).registry.find? (fun p => p.1 == k) with
  | none => simp [rget, hfind]
  | some p =>
      exfalso
      have hmem := List.mem_of_find?_eq_some hfind
      have hpk : p.1 = k := by simpa using List.find?_some hfind
      obtain ⟨c, hc, hcid, hcrun⟩ := hinv p hmem
      have hdead := hk p.2 c hc (hcid.trans hpk)
      rw [hdead] at hcrun
      cases hcrun

/-- Claim C5 witness: construct a controller with identifier a, then
process its close event; fromID on a returns the not-found value. -/
theorem c5_witness :
    rget (applyTrace initSys
      [Ev.construct "a" (some 5), Ev.closeEv 0 (some 0) none]).registry "a"
      = none := by
  apply (c5_registry_only_live _).2
  intro t c h1 _
  have hs : applyTrace initSys
      [Ev.construct "a" (some 5), Ev.closeEv 0 (some 0) none] =
      Sys.mk [Ctrl.mk "a" false false (some 5) (some (some 0)) (some none)]
        [] := by decide
  rw [hs] at h1
  match t, h1 with
  | 0, h1 => cases h1; rfl

theorem noClose_pristine (tr : List Ev) :
    ∀ s t, (∀ e ∈ tr, closesT t e = false) →
      (∀ c, s.terminals[t]? = some c →
        c.running = true ∧ c.exitCode = none ∧ c.exitSignal = none) →
      ∀ c, (applyTrace s tr).terminals[t]? = some c →
        c.running = true ∧ c.exitCode = none ∧ c.exitSignal = none := by
  induction tr with
  | nil => intro s t _ hP c hc; exact hP c hc
  | cons e tr ih =>
      intro s t htr hP
      apply ih (step s e) t
        (fun e2 he2 => htr e2 (List.mem_cons_of_mem _ he2))
      intro c hc
      cases e with
      | construct id pid =>
          simp only [step] at hc
          by_cases hlt : t < s.terminals.length
          · rw [List.getElem?_append_left hlt] at hc
            exact hP c hc
          · by_cases heq : t = s.terminals.length
            · subst heq
              rw [List.getElem?_concat_length] at hc
              cases hc
              exact ⟨rfl, rfl, rfl⟩
            · exfalso
              rw [List.getElem?_eq_none (by simp; omega)] at hc
              cases hc
      | closeEv u code sig =>
          have hne : u ≠ t := by
            have := htr _ (List.mem_cons_self _ _)
            simpa [closesT] using this
          cases hu : s.terminals[u]? with
          | none => simp only [step, hu] at hc; exact hP c hc
          | some cu =>
              simp only [step, hu] at hc
              rw [List.getElem?_set_ne hne] at hc
              exact hP c hc
      | dataEv _ _ => exact hP c hc
      | stdoutErr _ => exact hP c hc

theorem noClose_frozen (tr : List Ev) :
    ∀ s t c, (∀ e ∈ tr, closesT t e = false) →
      s.terminals[t]? = some c →
      (applyTrace s tr).terminals[t]? = some c := by
  induction tr with
  | nil => intro s t c _ hc; exact hc
  | cons e tr ih =>
      intro s t c htr hc
      apply ih (step s e) t c
        (fun e2 he2 => htr e2 (List.mem_cons_of_mem _ he2))
      cases e with
      | construct id pid =>
          simp only [step]
          rw [List.getElem?_append_left (getElem?_lt_len _ _ _ hc)]
          exact hc
      | closeEv u code sig =>
          have hne : u ≠ t := by
            have := htr _ (List.mem_cons_self _ _)
            simpa [closesT] using this
          cases hu : s.terminals[u]? with
          | none => simpa [step, hu] using hc
          | some cu =>
              simp only [step, hu]
              rw [List.getElem?_set_ne hne]
              exact hc
      | dataEv _ _ => exact hc
      | stdoutErr _ => exact hc

/-- Claim C7: for a controller reached by any event trace, as long as no
close event for it was processed both exit fields are unassigned and the
controller is running; and when the trace contains exactly one close
event for it, the fields afterwards hold exactly the code and signal of
that event and the controller is not running: the one close handler per
controller performs the single terminal transition. -/
theorem c7_exit_fields_set_exactly_once (tr : List Ev) (t : Nat) (c : Ctrl)
    (hc : (applyTrace initSys tr).terminals[t]? = some c) :
    ((∀ e ∈ tr, closesT t e = false) →
      c.running = true ∧ c.exitCode = none ∧ c.exitSignal = none) ∧
    ∀ pre code sig post,
      tr = pre ++ Ev.closeEv t code sig :: post →
      (∀ e ∈ post, closesT t e = false) →
      t < (applyTrace initSys pre).terminals.length →
      c.running = false ∧ c.exitCode = some code ∧
        c.exitSignal = some sig := by
  constructor
  · intro htr
    exact noClose_pristine tr initSys t htr
      (by intro c2 hc2; simp [initSys] at hc2) c hc
  · intro pre code sig post htr hpost hlen
    subst htr
    obtain ⟨c0, hc0⟩ :
        ∃ c0, (applyTrace initSys pre).terminals[t]? = some c0 := by
      rw [List.getElem?_eq_getElem hlen]
      exact ⟨_, rfl⟩
    have hstep : (step (applyTrace initSys pre)
        (Ev.closeEv t code sig)).terminals[t]? =
        some (Ctrl.mk c0.id false c0.procKilled c0.pid
          (some code) (some sig)) := by
      simp only [step, hc0]
      exact List.getElem?_set_self (by simpa using hlen)
    have hafter := noClose_frozen post _ t _ hpost hstep
    rw [applyTrace_append, applyTrace] at hc
    rw [hafter] at hc
    cases hc
    exact ⟨rfl, rfl, rfl⟩

/-- Claim C7 witness: construct a controller, process its close with
code zero and no signal, then a further data event; the exit fields hold
exactly that code and signal and the controller is not running. -/
theorem c7_witness :
    (applyTrace initSys [Ev.construct "x" none, Ev.closeEv 0 (some 0) none,
      Ev.dataEv 0 "z"]).terminals[0]? =
      some (Ctrl.mk "x" false false none (some (some 0)) (some none)) ∧
    (Ctrl.mk "x" false false none (some (some 0)) (some none)).running
        = false ∧
    (Ctrl.mk "x" false false none (some (some 0)) (some none)).exitCode
        = some (some 0) := by
  refine ⟨by decide, ?_, rfl⟩
  exact ((c7_exit_fields_set_exactly_once
      [Ev.construct "x" none, Ev.closeEv 0 (some 0) none, Ev.dataEv 0 "z"]
      0 (Ctrl.mk "x" false false none (some (some 0)) (some none))
      (by decide)).2
    [Ev.construct "x" none] (some 0) none [Ev.dataEv 0 "z"] rfl
    (by decide) (by decide)).1

/-- Claim C8 counterexample: the spec states that the error handler
marks the controller not-running. The listeners installed for errors
only record the error in a local variable of Terminal.new or reject an
already settled promise; processing a stdout error event leaves the
whole system state, in particular the running flag, unchanged, and the
controller is marked not-running only by the close handler. -/
theorem c8_error_event_keeps_running :
    step (applyTrace initSys [Ev.construct "e" (some 7)]) (Ev.stdoutErr 0)
      = applyTrace initSys [Ev.construct "e" (some 7)] ∧
    (applyTrace initSys
        [Ev.construct "e" (some 7), Ev.stdoutErr 0]).terminals[0]?
      = some (Ctrl.mk "e" true false (some 7) none none) :=
  ⟨rfl, by decide⟩

/-- Claim C8 (amended): a mid-stream error after a settled attempt is
not retried, because the attempt loop already returned at the first
settled attempt and its result is fixed by the outcomes up to that
attempt; the installed error listeners change no controller or registry
state (in particular they do not mark the controller not-running, which
only the close handler does); and an iteration of listen in progress
yields no item at or after the error event. -/
theorem c8_midstream_error_amended :
    (∀ (s : Sys) (t : Nat), step s (Ev.stdoutErr t) = s) ∧
    (∀ (outcome : Nat → AttemptOutcome) (k tc : Nat), k < tc →
      (∀ j, j < k → outcome j = AttemptOutcome.earlyError) →
      outcome k = AttemptOutcome.settled →
      terminalNew outcome tc = LoopResult.mk (some k) (k + 1) k) ∧
    ∀ (b : TermBuf) (texts : List String) (post : List SEv),
      hListen b (texts.map SEv.chunk ++ SEv.serr :: post) =
        b.data ++ texts := by
  refine ⟨fun s t => rfl, ?_, ?_⟩
  · intro outcome k tc h1 h2 h3
    have h4 := runAttempts_first_settle outcome tc 0 k (Nat.zero_le _)
      (by omega) (fun j _ hj => h2 j hj) h3
    simpa [terminalNew] using h4
  · intro b texts post
    simp [hListen, forAwaitYield_until_error]

/-- Claim C8 witness: with the first two attempts failing and the third
settling, the loop returns the third terminal after exactly three
attempts regardless of the two remaining tries; and an in-progress
iteration over one chunk followed by a stream error yields exactly that
chunk. -/
theorem c8_witness :
    terminalNew
        (fun j => if j < 2 then AttemptOutcome.earlyError
          else AttemptOutcome.settled) 5
      = LoopResult.mk (some 2) 3 2 ∧
    hListen initBuf (([ "x" ] : List String).map SEv.chunk ++
        SEv.serr :: [SEv.chunk "y"]) = ["x"] := by
  constructor
  · exact c8_midstream_error_amended.2.1
      (fun j => if j < 2 then AttemptOutcome.earlyError
        else AttemptOutcome.settled) 2 5 (by omega) (by decide) (by decide)
  · simpa [initBuf] using c8_midstream_error_amended.2.2 initBuf ["x"]
      [SEv.chunk "y"]

theorem rset_cons_drop (p : TermId × Nat) (r : Registry) (k : TermId)
    (v : Nat) (h : p.1 = k) : rset (p :: r) k v = rset r k v := by
  simp [rset, List.filter_cons, h]

theorem rset_cons_keep (p : TermId × Nat) (r : Registry) (k : TermId)
    (v : Nat) (h : p.1 ≠ k) : rset (p :: r) k v = p :: rset r k v := by
  simp [rset, List.filter_cons, h]

theorem rget_cons_hit (p : TermId × Nat) (r : Registry) (k : TermId)
    (h : p.1 = k) : rget (p :: r) k = some p.2 := by
  simp [rget, List.find?_cons_of_pos, h]

theorem rget_cons_miss (p : TermId × Nat) (r : Registry) (k : TermId)
    (h : p.1 ≠ k) : rget (p :: r) k = rget r k := by
  rw [rget, rget, List.find?_cons_of_neg]
  simp [h]

theorem rget_rset_self (r : Registry) (k : TermId) (v : Nat) :
    rget (rset r k v) k = some v := by
  induction r with
  | nil => simp [rget, rset]
  | cons p r ih =>
      by_cases h : p.1 = k
      · rw [rset_cons_drop p r k v h]; exact ih
      · rw [rset_cons_keep p r k v h, rget_cons_miss p _ k h]; exact ih

theorem rget_rset_ne (r : Registry) (k k2 : TermId) (v : Nat) (h : k ≠ k2) :
    rget (rset r k2 v) k = rget r k := by
  induction r with
  | nil =>
      show rget [(k2, v)] k = rget [] k
      rw [rget_cons_miss _ _ _ (Ne.symm h)]
  | cons p r ih =>
      by_cases hp : p.1 = k2
      · have hpk : p.1 ≠ k := by rw [hp]; exact Ne.symm h
        rw [rset_cons_drop p r k2 v hp, rget_cons_miss p r k hpk]
        exact ih
      · rw [rset_cons_keep p r k2 v hp]
        by_cases hk : p.1 = k
        · rw [rget_cons_hit p _ k hk, rget_cons_hit p r k hk]
        · rw [rget_cons_miss p _ k hk, rget_cons_miss p r k hk]
          exact ih

theorem rdel_cons_drop (p : TermId × Nat) (r : Registry) (k : TermId)
    (h : p.1 = k) : rdel (p :: r) k = rdel r k := by
  simp [rdel, List.filter_cons, h]

theorem rdel_cons_keep (p : TermId × Nat) (r : Registry) (k : TermId)
    (h : p.1 ≠ k) : rdel (p :: r) k = p :: rdel r k := by
  simp [rdel, List.filter_cons, h]

theorem rget_rdel_ne (r : Registry) (k k2 : TermId) (h : k ≠ k2) :
    rget (rdel r k2) k = rget r k := by
  induction r with
  | nil => rfl
  | cons p r ih =>
      by_cases hp : p.1 = k2
      · have hpk : p.1 ≠ k := by rw [hp]; exact Ne.symm h
        rw [rdel_cons_drop p r k2 hp, rget_cons_miss p r k hpk]
        exact ih
      · rw [rdel_cons_keep p r k2 hp]
        by_cases hk : p.1 = k
        · rw [rget_cons_hit p _ k hk, rget_cons_hit p r k hk]
        · rw [rget_cons_miss p _ k hk, rget_cons_miss p r k hk]
          exact ih

theorem c10_inv_stable (post : List Ev) :
    ∀ (s : Sys) (id : TermId) (n : Nat),
      rget s.registry id = some n →
      (∀ u c, s.terminals[u]? = some c → c.id = id → u = n) →
      (∀ e ∈ post, closesT n e = false) →
      (∀ e ∈ post, constructsId id e = false) →
      rget (applyTrace s post).registry id = some n := by
  induction post with
  | nil => intro s id n h1 _ _ _; exact h1
  | cons e tr ih =>
      intro s id n h1 h2 h3 h4
      apply ih (step s e) id n ?_ ?_
        (fun e2 he2 => h3 _ (List.mem_cons_of_mem _ he2))
        (fun e2 he2 => h4 _ (List.mem_cons_of_mem _ he2))
      · cases e with
        | construct id2 pid =>
            have hne : id ≠ id2 := by
              have := h4 _ (List.mem_cons_self _ _)
              simp [constructsId] at this
              exact fun heq => this heq.symm
            simpa [step] using (rget_rset_ne s.registry id id2 _ hne).trans h1
        | closeEv u code sig =>
            cases hu : s.terminals[u]? with
            | none => simpa [step, hu] using h1
            | some cu =>
                have hne : id ≠ cu.id := by
                  intro heq
                  have hun : u = n := h2 u cu hu heq.symm
                  have := h3 _ (List.mem_cons_self _ _)
                  simp [closesT, hun] at this
                simp only [step, hu]
                exact (rget_rdel_ne s.registry id cu.id hne).trans h1
        | dataEv _ _ => exact h1
        | stdoutErr _ => exact h1
      · cases e with
        | construct id2 pid =>
            have hne : id ≠ id2 := by
              have := h4 _ (List.mem_cons_self _ _)
              simp [constructsId] at this
              exact fun heq => this heq.symm
            intro u c hc hcid
            simp only [step] at hc
            by_cases hlt : u < s.terminals.length
            · rw [List.getElem?_append_left hlt] at hc
              exact h2 u c hc hcid
            · by_cases heq : u = s.terminals.length
              · exfalso
                subst heq
                rw [List.getElem?_concat_length] at hc
                cases hc
                exact hne hcid.symm
              · exfalso
                rw [List.getElem?_eq_none (by simp; omega)] at hc
                cases hc
        | closeEv u code sig =>
            cases hu : s.terminals[u]? with
            | none =>
                intro v c hc hcid
                simp only [step, hu] at hc
                exact h2 v c hc hcid
            | some cu =>
                intro v c hc hcid
                simp only [step, hu] at hc
                by_cases hv : u = v
                · subst hv
                  rw [List.getElem?_set_self (getElem?_lt_len _ _ _ hu)]
                    at hc
                  cases hc
                  exact h2 u cu hu hcid
                · rw [List.getElem?_set_ne hv] at hc
                  exact h2 v c hc hcid
        | dataEv _ _ => exact h2
        | stdoutErr _ => exact h2

theorem bytesToHex_length (bs : List Nat) :
    (bytesToHex bs).length = 2 * bs.length := by
  induction bs with
  | nil => rfl
  | cons b bs ih => simp [bytesToHex, ih]; omega

theorem hexDigitChar_lower (n : Nat) (h : n < 16) :
    isLowerHex (hexDigitChar n) = true := by
  interval_cases n <;> decide

theorem bytesToHex_hex (bs : List Nat) (hb : ∀ b ∈ bs, b < 256) :
    ∀ ch ∈ bytesToHex bs, isLowerHex ch = true := by
  induction bs with
  | nil => intro ch hch; cases hch
  | cons b bs ih =>
      intro ch hch
      have hb0 : b < 256 := hb b (List.mem_cons_self _ _)
      rcases hch with _ | ⟨_, hch⟩
      · exact hexDigitChar_lower _ (by omega)
      · rcases hch with _ | ⟨_, hch⟩
        · exact hexDigitChar_lower _ (by omega)
        · exact ih (fun x hx => hb x (List.mem_cons_of_mem _ hx)) ch hch

/-- Claim C10: the constructor registers the freshly constructed
controller under its identifier, so immediately afterwards and for as
long as no close event of that controller and no construction reusing
the identifier occurs, fromID on the identifier returns exactly that
controller (its construction index); and an identifier produced by hex
encoding sixteen random bytes consists of thirty-two lowercase hex digit
characters. -/
theorem c10_register_then_lookup (tr post : List Ev) (id : TermId)
    (pid : Option Nat)
    (hfresh : ∀ c ∈ (applyTrace initSys tr).terminals, c.id ≠ id)
    (hpost1 : ∀ e ∈ post,
      closesT (applyTrace initSys tr).terminals.length e = false)
    (hpost2 : ∀ e ∈ post, constructsId id e = false) :
    rget (applyTrace initSys
        (tr ++ Ev.construct id pid :: post)).registry id
      = some (applyTrace initSys tr).terminals.length ∧
    ∀ bs : List Nat, bs.length = 16 → (∀ b ∈ bs, b < 256) →
      (bytesToHex bs).length = 32 ∧
      ∀ ch ∈ bytesToHex bs, isLowerHex ch = true := by
  constructor
  · rw [applyTrace_append, applyTrace]
    apply c10_inv_stable post _ id _ ?_ ?_ hpost1 hpost2
    · simpa [step] using
        rget_rset_self (applyTrace initSys tr).registry id
          (applyTrace initSys tr).terminals.length
    · intro u c hc hcid
      simp only [step] at hc
      by_cases hlt : u < (applyTrace initSys tr).terminals.length
      · exfalso
        rw [List.getElem?_append_left hlt] at hc
        exact hfresh c (List.getElem?_mem hc) hcid
      · by_cases heq : u = (applyTrace initSys tr).terminals.length
        · exact heq
        · exfalso
          rw [List.getElem?_eq_none (by simp; omega)] at hc
          cases hc
  · intro bs hlen hb
    refine ⟨by rw [bytesToHex_length, hlen], bytesToHex_hex bs hb⟩

/-- Claim C10 witness: constructing a controller with identifier ab in
the empty system and then processing an unrelated data event, fromID on
ab returns construction index zero; and hex encoding sixteen bytes
yields thirty-two characters. -/
theorem c10_witness :
    rget (applyTrace initSys
        ([] ++ Ev.construct "ab" none :: [Ev.dataEv 0 "z"])).registry "ab"
      = some 0 ∧
    (bytesToHex (List.replicate 16 7)).length = 32 := by
  constructor
  · have h := (c10_register_then_lookup [] [Ev.dataEv 0 "z"] "ab" none
      (by intro c hc; cases hc) (by decide) (by decide)).1
    simpa [applyTrace, initSys] using h
  · exact ((c10_register_then_lookup [] [] "ab" none
      (by intro c hc; cases hc) (by decide) (by decide)).2
      (List.replicate 16 7) (by decide) (by decide)).1

theorem matchesPre_emp (l : List Char) : matchesPre Rx.emp l = false := by
  induction l with
  | nil => rfl
  | cons c cs ih => simpa [matchesPre, deriv, nullable] using ih

theorem matchesPre_cat_emp (r : Rx) (l : List Char) :
    matchesPre (Rx.cat Rx.emp r) l = false := by
  induction l with
  | nil => rfl
  | cons c cs ih => simpa [matchesPre, deriv, nullable] using ih

theorem matchesPre_alt (l : List Char) :
    ∀ a b : Rx,
      matchesPre (Rx.alt a b) l = (matchesPre a l || matchesPre b l) := by
  induction l with
  | nil => intro a b; rfl
  | cons c cs ih =>
      intro a b
      simp only [matchesPre, deriv, nullable, ih]
      simp [Bool.or_assoc, Bool.or_comm, Bool.or_left_comm]

theorem matchesPre_cat_eps (l : List Char) :
    ∀ r : Rx, matchesPre (Rx.cat Rx.eps r) l = matchesPre r l := by
  induction l with
  | nil => intro r; simp [matchesPre, nullable]
  | cons c cs ih =>
      intro r
      have hd : deriv (Rx.cat Rx.eps r) c =
          Rx.alt (Rx.cat Rx.emp r) (deriv r c) := by
        simp [deriv, nullable]
      simp [matchesPre, hd, matchesPre_alt, matchesPre_cat_emp, nullable]

theorem matchesPre_cat_cls_nil (p : Char → Bool) (r : Rx) :
    matchesPre (Rx.cat (Rx.cls p) r) [] = false := by
  simp [matchesPre, nullable]

theorem matchesPre_cat_cls_cons (p : Char → Bool) (r : Rx) (c : Char)
    (cs : List Char) :
    matchesPre (Rx.cat (Rx.cls p) r) (c :: cs) =
      (p c && matchesPre r cs) := by
  have hd : deriv (Rx.cat (Rx.cls p) r) c =
      Rx.cat (if p c then Rx.eps else Rx.emp) r := by
    simp [deriv, nullable]
  by_cases hp : p c
  · simp [matchesPre, hd, hp, nullable, matchesPre_cat_eps]
  · simp [matchesPre, hd, hp, nullable, matchesPre_cat_emp]

theorem already_head (s : String) (h : alreadyDownloadedMatches s = true) :
    ∃ c0 c1 rest, s.toList = c0 :: c1 :: rest ∧
      (c0.toLower == Char.toLower (Char.ofNat 91)) = true ∧
      (c1.toLower == Char.toLower (Char.ofNat 100)) = true := by
  obtain ⟨R, hR⟩ : ∃ R : Rx, ALREADY_DOWNLOADED_RE =
      Rx.cat (ci (Char.ofNat 91)) (Rx.cat (ci (Char.ofNat 100)) R) :=
    ⟨_, rfl⟩
  rw [alreadyDownloadedMatches, hR] at h
  simp only [ci] at h
  cases hs : s.toList with
  | nil =>
      rw [hs, matchesPre_cat_cls_nil] at h
      cases h
  | cons c0 tl =>
      rw [hs, matchesPre_cat_cls_cons] at h
      obtain ⟨h0, h1⟩ := Bool.and_eq_true_iff.mp h
      cases ht : tl with
      | nil =>
          rw [ht, matchesPre_cat_cls_nil] at h1
          cases h1
      | cons c1 rest =>
          rw [ht, matchesPre_cat_cls_cons] at h1
          obtain ⟨h2, _⟩ := Bool.and_eq_true_iff.mp h1
          exact ⟨c0, c1, rest, rfl, h0, h2⟩

theorem stripCI_cons (p : Char) (ps l t : List Char)
    (h : stripCI (p :: ps) l = some t) :
    ∃ c cs, l = c :: cs ∧ (c.toLower == p.toLower) = true ∧
      stripCI ps cs = some t := by
  cases l with
  | nil => cases h
  | cons c cs =>
      by_cases hc : (c.toLower == p.toLower) = true
      · exact ⟨c, cs, rfl, hc, by simpa [stripCI, hc] using h⟩
      · rw [stripCI, if_neg hc] at h
        cases h

theorem progress_head (s : String) (g : List Char)
    (h : progressExec s = some g) :
    ∃ c0 c1 rest, s.toList = c0 :: c1 :: rest ∧
      (c1.toLower == Char.toLower (Char.ofNat 112)) = true := by
  rw [progressExec] at h
  cases hst : stripCI "[progress]".toList s.toList with
  | none => rw [hst] at h; cases h
  | some t =>
      have hlist : "[progress]".toList =
          Char.ofNat 91 :: Char.ofNat 112 ::
            "rogress]".toList := by decide
      rw [hlist] at hst
      obtain ⟨c0, cs, hl0, _, hst1⟩ := stripCI_cons _ _ _ _ hst
      obtain ⟨c1, cs2, hl1, hp, _⟩ := stripCI_cons _ _ _ _ hst1
      exact ⟨c0, c1, cs2, by rw [hl0, hl1], hp⟩

theorem progress_not_already (s : String) (g : List Char)
    (h : progressExec s = some g) :
    alreadyDownloadedMatches s = false := by
  cases ha : alreadyDownloadedMatches s with
  | false => rfl
  | true =>
      exfalso
      obtain ⟨c0, c1, rest, hs1, _, hd⟩ := already_head s ha
      obtain ⟨d0, d1, rest2, hs2, hp⟩ := progress_head s g h
      rw [hs1] at hs2
      cases hs2
      have hd2 : c1.toLower = Char.toLower (Char.ofNat 100) :=
        eq_of_beq hd
      rw [hd2] at hp
      exact absurd hp (by decide)

theorem lang_nil_nullable {r : Rx} {m : List Char} (h : Lang r m) :
    m = [] → nullable r = true := by
  induction h with
  | leps => intro _; rfl
  | lcls p c hp => intro h2; cases h2
  | lcat a b l1 l2 h1 h2 ih1 ih2 =>
      intro h3
      rcases List.append_eq_nil.mp h3 with ⟨e1, e2⟩
      simp [nullable, ih1 e1, ih2 e2]
  | laltL a b l h ih => intro h3; simp [nullable, ih h3]
  | laltR a b l h ih => intro h3; simp [nullable, ih h3]
  | lstarNil a => intro _; rfl
  | lstarCons a l1 l2 h1 h2 ih1 ih2 => intro _; rfl

theorem matchesPre_of_nullable {r : Rx} (h : nullable r = true)
    (l : List Char) : matchesPre r l = true := by
  cases l <;> simp [matchesPre, h]

theorem lang_deriv {r : Rx} {m : List Char} (h : Lang r m) :
    ∀ c l, m = c :: l → Lang (deriv r c) l := by
  induction h with
  | leps => intro c l h2; cases h2
  | lcls p c0 hp =>
      intro c l h2
      injection h2 with h3 h4
      rw [← h3, ← h4]
      simp only [deriv]
      rw [if_pos hp]
      exact Lang.leps
  | lcat a b l1 l2 h1 h2 ih1 ih2 =>
      intro c l h3
      cases l1 with
      | nil =>
          have hl2 : l2 = c :: l := by simpa using h3
          have hna : nullable a = true := lang_nil_nullable h1 rfl
          simp only [deriv, hna, if_pos]
          exact Lang.laltR _ _ _ (ih2 c l hl2)
      | cons x xs =>
          injection h3 with h4 h5
          rw [← h4, ← h5]
          have hcat : Lang (Rx.cat (deriv a x) b) (xs ++ l2) :=
            Lang.lcat _ _ _ _ (ih1 x xs rfl) h2
          by_cases hna : nullable a = true
          · simp only [deriv]
            rw [if_pos hna]
            exact Lang.laltL _ _ _ hcat
          · simp only [deriv]
            rw [if_neg hna]
            exact hcat
  | laltL a b l h ih =>
      intro c l2 h2
      exact Lang.laltL _ _ _ (ih c l2 h2)
  | laltR a b l h ih =>
      intro c l2 h2
      exact Lang.laltR _ _ _ (ih c l2 h2)
  | lstarNil a => intro c l h2; cases h2
  | lstarCons a l1 l2 h1 h2 ih1 ih2 =>
      intro c l h3
      cases l1 with
      | nil =>
          have hl2 : l2 = c :: l := by simpa using h3
          exact ih2 c l hl2
      | cons x xs =>
          injection h3 with h4 h5
          rw [← h4, ← h5]
          simp only [deriv]
          exact Lang.lcat _ _ _ _ (ih1 x xs rfl) h2

theorem lang_matchesPre {m : List Char} :
    ∀ {r : Rx}, Lang r m → ∀ rest, matchesPre r (m ++ rest) = true := by
  induction m with
  | nil =>
      intro r h rest
      exact matchesPre_of_nullable (lang_nil_nullable h rfl) rest
  | cons c cs ih =>
      intro r h rest
      have hd := lang_deriv h c cs rfl
      simp [matchesPre, ih hd rest]

theorem lang_star_cls (p : Char → Bool) :
    ∀ l : List Char, (∀ c ∈ l, p c = true) →
      Lang (Rx.star (Rx.cls p)) l := by
  intro l
  induction l with
  | nil => intro _; exact Lang.lstarNil _
  | cons c cs ih =>
      intro h
      have h2 : Lang (Rx.star (Rx.cls p)) ([c] ++ cs) :=
        Lang.lstarCons _ [c] cs
          (Lang.lcls p c (h c (List.mem_cons_self _ _)))
          (ih (fun x hx => h x (List.mem_cons_of_mem _ hx)))
      simpa using h2

theorem lang_wsPlus (c : Char) (cs : List Char) (hc : isJsWs c = true)
    (hcs : ∀ x ∈ cs, isJsWs x = true) : Lang wsPlus (c :: cs) := by
  have h2 : Lang wsPlus ([c] ++ cs) :=
    Lang.lcat _ _ [c] cs (Lang.lcls _ c hc) (lang_star_cls isJsWs cs hcs)
  simpa using h2

theorem lang_dotPlus_single (d : Char) (hd : isJsDot d = true) :
    Lang dotPlus [d] := by
  have h2 : Lang dotPlus ([d] ++ []) :=
    Lang.lcat _ _ [d] [] (Lang.lcls _ d hd) (Lang.lstarNil _)
  simpa using h2

theorem stripCI_lang (K : Rx) :
    ∀ (p l t u v : List Char), stripCI p l = some t → Lang K u →
      t = u ++ v →
      ∃ m, l = m ++ v ∧
        Lang (p.foldr (fun c r => Rx.cat (ci c) r) K) m := by
  intro p
  induction p with
  | nil =>
      intro l t u v h hK ht
      simp only [stripCI] at h
      cases h
      exact ⟨u, ht, hK⟩
  | cons c ps ih =>
      intro l t u v h hK ht
      obtain ⟨c0, cs, rfl, hcc, hstrip⟩ := stripCI_cons c ps l t h
      obtain ⟨m, hm, hLm⟩ := ih cs t u v hstrip hK ht
      refine ⟨c0 :: m, by rw [hm]; rfl, ?_⟩
      have h2 : Lang
          (Rx.cat (ci c) (ps.foldr (fun x r => Rx.cat (ci x) r) K))
          ([c0] ++ m) :=
        Lang.lcat _ _ [c0] m (Lang.lcls _ c0 hcc) hLm
      simpa using h2

theorem greedyWsSplit_facts (t : List Char) :
    ∀ n kk, greedyWsSplit t n = some kk →
      1 ≤ kk ∧ kk ≤ n ∧ (t.drop kk).head?.elim false isJsDot = true := by
  intro n
  induction n with
  | zero => intro kk h; cases h
  | succ n ih =>
      intro kk h
      rw [greedyWsSplit] at h
      by_cases hd : (t.drop (n + 1)).head?.elim false isJsDot = true
      · rw [if_pos hd] at h
        cases h
        exact ⟨by omega, by omega, hd⟩
      · rw [if_neg hd] at h
        obtain ⟨h1, h2, h3⟩ := ih kk h
        exact ⟨h1, by omega, h3⟩

theorem take_all_ws :
    ∀ (t : List Char) (kk : Nat), kk ≤ (t.takeWhile isJsWs).length →
      ∀ c ∈ t.take kk, isJsWs c = true := by
  intro t
  induction t with
  | nil => intro kk h c hc; simp at hc
  | cons x ts ih =>
      intro kk h c hc
      cases kk with
      | zero => simp at hc
      | succ k =>
          by_cases hx : isJsWs x = true
          · rw [List.takeWhile_cons_of_pos hx] at h
            simp only [List.take_succ_cons] at hc
            rcases List.mem_cons.mp hc with rfl | hc2
            · exact hx
            · exact ih k (by simpa using h) c hc2
          · rw [List.takeWhile_cons_of_neg hx] at h
            simp at h

theorem head_elim_dot (l : List Char)
    (h : l.head?.elim false isJsDot = true) :
    ∃ d rest, l = d :: rest ∧ isJsDot d = true := by
  cases l with
  | nil => cases h
  | cons d rest => exact ⟨d, rest, rfl, by simpa using h⟩

/-- Certification of the exec model of the progress pattern: whenever
progressExec returns a capture, the anchored body DOWNLOAD_PROGRESS_RE
matches a prefix of the text, so the exec model succeeds only on lines
the source regex matches. -/
theorem progressExec_sound (s : String) (g : List Char)
    (h : progressExec s = some g) :
    matchesPre DOWNLOAD_PROGRESS_RE s.toList = true := by
  cases hst : stripCI "[progress]".toList s.toList with
  | none =>
      exfalso
      have h0 : progressExec s = none := by rw [progressExec, hst]
      rw [h0] at h
      cases h
  | some t =>
      cases hgw : greedyWsSplit t (t.takeWhile isJsWs).length with
      | none =>
          exfalso
          have h0 : progressExec s = none := by
            rw [progressExec, hst]
            show (match greedyWsSplit t (t.takeWhile isJsWs).length with
              | none => none
              | some k => some ((t.drop k).takeWhile isJsDot)) = none
            rw [hgw]
          rw [h0] at h
          cases h
      | some kk =>
          obtain ⟨h1, h2, h3⟩ := greedyWsSplit_facts t _ kk hgw
          obtain ⟨d, after, hda, hdot⟩ := head_elim_dot _ h3
          have hws : ∀ c ∈ t.take kk, isJsWs c = true := take_all_ws t kk h2
          have hkt : kk ≤ t.length := by
            by_contra hc
            rw [List.drop_eq_nil_of_le (by omega)] at hda
            cases hda
          have hlen : (t.take kk).length = kk := by
            rw [List.length_take]
            omega
          obtain ⟨w0, wrest, hw⟩ : ∃ w0 wrest, t.take kk = w0 :: wrest := by
            cases htk : t.take kk with
            | nil => rw [htk] at hlen; simp at hlen; omega
            | cons a b => exact ⟨a, b, rfl⟩
          have hLws : Lang wsPlus (t.take kk) := by
            rw [hw]
            apply lang_wsPlus
            · exact hws w0 (by rw [hw]; exact List.mem_cons_self _ _)
            · intro x hx
              exact hws x (by rw [hw]; exact List.mem_cons_of_mem _ hx)
          have hLK : Lang (Rx.cat wsPlus dotPlus) (t.take kk ++ [d]) :=
            Lang.lcat _ _ _ _ hLws (lang_dotPlus_single d hdot)
          have ht : t = (t.take kk ++ [d]) ++ after := by
            conv_lhs => rw [← List.take_append_drop kk t]
            rw [hda]
            simp
          obtain ⟨m, hm, hLm⟩ := stripCI_lang (Rx.cat wsPlus dotPlus)
            "[progress]".toList s.toList t (t.take kk ++ [d]) after hst
            hLK ht
          have hmp := lang_matchesPre hLm after
          rw [← hm] at hmp
          exact hmp

/-- Claim C9: the raw-line dispatch of downloadValueSelector: a line
matched by the already-downloaded pattern produces the stop object; a
line on which the exec of the progress pattern succeeds with capture g
produces the object whose data field is the abstract JSON.parse applied
to g (the two patterns are mutually exclusive, since one requires a
second character d and the other a second character p, so no
already-downloaded guard is needed); and any other line produces the JS
null value, the drop indication of the protocol. -/
theorem c9_download_value_selector (J : Type) (jp : List Char → J)
    (text : String) :
    (alreadyDownloadedMatches text = true →
      downloadValueSelector jp text = SelRes.jsStop) ∧
    (∀ g, progressExec text = some g →
      downloadValueSelector jp text = SelRes.jsData (jp g)) ∧
    (alreadyDownloadedMatches text = false → progressExec text = none →
      downloadValueSelector jp text = SelRes.jsNull) := by
  refine ⟨fun h => by simp [downloadValueSelector, h], ?_,
    fun h1 h2 => by simp [downloadValueSelector, h1, h2]⟩
  intro g hg
  have hna := progress_not_already text g hg
  simp [downloadValueSelector, hna, hg]

/-- Claim C9 witness: a concrete already-downloaded line produces the
stop object, a concrete progress line produces the data object carrying
the captured payload text, and a plain line produces the null value. -/
theorem c9_witness :
    downloadValueSelector (J := List Char) (fun g => g)
        "[download] a.mp4 has already been downloaded" = SelRes.jsStop ∧
    downloadValueSelector (J := List Char) (fun g => g)
        "[progress] \x7b\x22p\x22:1\x7d" =
      SelRes.jsData "\x7b\x22p\x22:1\x7d".toList ∧
    downloadValueSelector (J := List Char) (fun g => g)
        "plain line" = SelRes.jsNull := by
  refine ⟨(c9_download_value_selector _ (fun g => g) _).1 (by decide),
    ?_,
    (c9_download_value_selector _ (fun g => g) _).2.2 (by decide)
      (by decide)⟩
  exact (c9_download_value_selector _ (fun g => g) _).2.1
    "\x7b\x22p\x22:1\x7d".toList (by decide)

end YtDlpHelper
